import Mathlib

/-!
Verification of the job-alert bot's diff/persistence core (src/main.py,
src/emailer.py), shallowly embedded in Lean.

The persisted state file holds a JSON document; we model JSON values with
an inductive type.  Python truthiness and hashability are modelled
explicitly because `load_known_jobs` filters entries by truthiness and
builds a Python `set` from them (which raises `TypeError` on unhashable
elements such as nested arrays/objects).  Numeric cross-type equality of
Python (`1 == True`) is abstracted away by structural equality; no claim
depends on it.
-/

/-- A JSON value, as produced by `json.load`.  Numbers are modelled as
integers; no claim involves fractional numbers. -/
inductive JVal where
  | jnull : JVal
  | jbool : Bool → JVal
  | jnum : Int → JVal
  | jstr : String → JVal
  | jarr : List JVal → JVal
  | jobj : List (String × JVal) → JVal

mutual

/-- Boolean structural equality on JSON values (deriving cannot handle
the nested inductive). -/
def JVal.beq : JVal → JVal → Bool
  | .jnull, .jnull => true
  | .jbool a, .jbool b => a == b
  | .jnum a, .jnum b => a == b
  | .jstr a, .jstr b => a == b
  | .jarr xs, .jarr ys => JVal.beqArr xs ys
  | .jobj kvs, .jobj lvs => JVal.beqObj kvs lvs
  | _, _ => false

/-- Equality of JSON arrays, elementwise. -/
def JVal.beqArr : List JVal → List JVal → Bool
  | [], [] => true
  | x :: xs, y :: ys => JVal.beq x y && JVal.beqArr xs ys
  | _, _ => false

/-- Equality of JSON objects, entrywise. -/
def JVal.beqObj : List (String × JVal) → List (String × JVal) → Bool
  | [], [] => true
  | (k, v) :: kvs, (l, w) :: lvs => k == l && JVal.beq v w && JVal.beqObj kvs lvs
  | _, _ => false

end

mutual

theorem JVal.beq_iff : ∀ a b : JVal, JVal.beq a b = true ↔ a = b
  | .jnull, b => by cases b <;> simp [JVal.beq]
  | .jbool x, b => by cases b <;> simp [JVal.beq]
  | .jnum x, b => by cases b <;> simp [JVal.beq]
  | .jstr x, b => by cases b <;> simp [JVal.beq]
  | .jarr xs, b => by
      cases b
      case jarr ys => simpa [JVal.beq] using JVal.beqArr_iff xs ys
      all_goals simp [JVal.beq]
  | .jobj kvs, b => by
      cases b
      case jobj lvs => simpa [JVal.beq] using JVal.beqObj_iff kvs lvs
      all_goals simp [JVal.beq]

theorem JVal.beqArr_iff : ∀ xs ys : List JVal, JVal.beqArr xs ys = true ↔ xs = ys
  | [], [] => by simp [JVal.beqArr]
  | [], _ :: _ => by simp [JVal.beqArr]
  | _ :: _, [] => by simp [JVal.beqArr]
  | x :: xs, y :: ys => by
      simp [JVal.beqArr, JVal.beq_iff x y, JVal.beqArr_iff xs ys]

theorem JVal.beqObj_iff :
    ∀ kvs lvs : List (String × JVal), JVal.beqObj kvs lvs = true ↔ kvs = lvs
  | [], [] => by simp [JVal.beqObj]
  | [], _ :: _ => by simp [JVal.beqObj]
  | _ :: _, [] => by simp [JVal.beqObj]
  | (k, v) :: kvs, (l, w) :: lvs => by
      simp [JVal.beqObj, JVal.beq_iff v w, JVal.beqObj_iff kvs lvs, and_assoc]

end

instance : DecidableEq JVal := fun a b =>
  decidable_of_iff (JVal.beq a b = true) (JVal.beq_iff a b)

/-- Python truthiness of a JSON value: `None`, `False`, `0`, `""`, `[]`,
`{}` are falsy, everything else truthy.  Used by the membership test
`if job_id` in the load filter. -/
def pyTruthy : JVal → Bool
  | .jnull => false
  | .jbool b => b
  | .jnum n => n != 0
  | .jstr s => s != ""
  | .jarr xs => !xs.isEmpty
  | .jobj kvs => !kvs.isEmpty

/-- Whether a JSON value is hashable in Python (lists and dicts are not;
`set(...)` raises `TypeError` when handed one). -/
def hashable : JVal → Bool
  | .jarr _ => false
  | .jobj _ => false
  | _ => true

/-- Storage content as seen by `load_known_jobs`:
`none` = the file does not exist; `some none` = the file exists but its
content fails to parse as JSON (`json.JSONDecodeError`);
`some (some v)` = the file parses to the JSON value `v`. -/
abbrev Storage := Option (Option JVal)

/-- The filter applied to each entry of a loaded array:
`job_id for job_id in data if job_id and job_id != "unknown_id"`. -/
def validEntry (v : JVal) : Bool :=
  pyTruthy v && v != .jstr "unknown_id"

/-- `load_known_jobs` (src/main.py lines 17-33).  Missing file, parse
failure, or a non-array root yield the empty set.  An array root is
filtered by `validEntry` and the survivors are collected into a Python
set; if any survivor is unhashable (a nested array or object), the `set`
constructor raises `TypeError`, modelled as `Except.error ()`. -/
def load_known_jobs (st : Storage) : Except Unit (Finset JVal) :=
  match st with
  | none => .ok ∅
  | some none => .ok ∅
  | some (some v) =>
    match v with
    | .jarr xs =>
      let valid_ids := xs.filter validEntry
      if valid_ids.all hashable then .ok valid_ids.toFinset
      else .error ()
    | _ => .ok ∅

instance {ε α : Type} [DecidableEq ε] [DecidableEq α] :
    DecidableEq (Except ε α) := fun a b =>
  match a, b with
  | .ok x, .ok y => decidable_of_iff (x = y) (by simp)
  | .error x, .error y => decidable_of_iff (x = y) (by simp)
  | .ok _, .error _ => isFalse (by simp)
  | .error _, .ok _ => isFalse (by simp)

/-- `save_known_jobs` (src/main.py lines 35-41) writes
`sorted(list(known_jobs))` as the JSON document; we record the written
JSON value. -/
def save_known_jobs (known_jobs : Finset String) : JVal :=
  .jarr ((known_jobs.sort (· ≤ ·)).map .jstr)

/-- A job posting as produced by the scraper: a dict whose fields may be
absent.  Only `id` participates in the diff logic. -/
structure Job where
  id : Option String
  title : Option String
  location : Option String
  link : Option String
deriving DecidableEq

/-- `job.get("id")` followed by the truthiness test `if job_id`: returns
the identifier when it is present and non-empty, else `none`. -/
def truthyId (j : Job) : Option String :=
  match j.id with
  | some s => if s = "" then none else some s
  | none => none

/-- The diff step of `main` (src/main.py lines 67-78): walk the current
postings in scrape order; a posting with a truthy identifier not yet in
the known set is appended to the new list and its identifier inserted;
every truthy identifier is inserted either way. -/
def diff (known : Finset String) : List Job → List Job × Finset String
  | [] => ([], known)
  | job :: rest =>
    match truthyId job with
    | none => diff known rest
    | some id =>
      if id ∈ known then diff (insert id known) rest
      else
        let r := diff (insert id known) rest
        (job :: r.1, r.2)

/-- Scenario check from the spec: K = {}, P = [A, B] gives new = [A, B]
and updated set {A, B}. -/
theorem diff_scenario_empty :
    diff ∅ [⟨some "A", none, none, none⟩, ⟨some "B", none, none, none⟩]
      = ([⟨some "A", none, none, none⟩, ⟨some "B", none, none, none⟩],
          {"A", "B"}) := by
  decide

/-- Scenario check from the spec: K = {A}, P = [A, B] gives new = [B]
and updated set {A, B}. -/
theorem diff_scenario_known :
    diff {"A"} [⟨some "A", none, none, none⟩, ⟨some "B", none, none, none⟩]
      = ([⟨some "B", none, none, none⟩], {"B", "A"}) := by
  decide

/-- What the SMTP transport does once configuration is present
(src/emailer.py lines 150-175): it either delivers, or raises one of the
exception classes that the surrounding try/except of `send_email`
catches. -/
inductive TransportOutcome where
  | ok : TransportOutcome
  | authError : TransportOutcome
  | smtpError : TransportOutcome
  | otherError : TransportOutcome
deriving DecidableEq

/-- Python truthiness of `os.environ.get(...)`: `None` (unset) and the
empty string are falsy. -/
def truthyEnv : Option String → Bool
  | none => false
  | some s => s != ""

/-- `send_email` (src/emailer.py).  Missing or empty configuration makes
it return `false` without attempting the transport; every exception the
transport raises is caught and turned into `false`, so the function
always returns a boolean and never propagates an error. -/
def send_email (sender_email sender_password receiver_email : Option String)
    (transport : TransportOutcome) (new_jobs : List Job) : Bool :=
  if !truthyEnv sender_email then false
  else if !truthyEnv sender_password then false
  else if !truthyEnv receiver_email then false
  else
    match transport with
    | .ok => true
    | .authError => false
    | .smtpError => false
    | .otherError => false

/-- Observable outcome of one execution of `main` (src/main.py) from the
point where the known set has been loaded.  `noJobsDiag` records the
"No jobs found or scraping failed" diagnostic of the early return;
`diffRes` is `none` when the diff step never ran; `emailResult` is
`some b` when `send_email` was called and returned `b`; `saved` is the
JSON document handed to `save_known_jobs`, or `none` when save was never
called. -/
structure RunResult where
  noJobsDiag : Bool
  diffRes : Option (List Job × Finset String)
  emailResult : Option Bool
  saved : Option JVal
deriving DecidableEq

/-- The body of `main` (src/main.py lines 43-106) after
`known_jobs = load_known_jobs()`: `known` is the loaded set,
`current_jobs` the fetcher's result, and the email configuration and
transport outcome parametrise the notifier. -/
def mainRun (known : Finset String) (current_jobs : List Job)
    (sender_email sender_password receiver_email : Option String)
    (transport : TransportOutcome) : RunResult :=
  if current_jobs.isEmpty then
    { noJobsDiag := true, diffRes := none, emailResult := none, saved := none }
  else
    let r := diff known current_jobs
    let new_jobs := r.1
    if !new_jobs.isEmpty then
      let email_sent :=
        send_email sender_email sender_password receiver_email transport new_jobs
      { noJobsDiag := false, diffRes := some r, emailResult := some email_sent,
        saved := some (save_known_jobs r.2) }
    else
      { noJobsDiag := false, diffRes := some r, emailResult := none,
        saved := some (save_known_jobs r.2) }

/-- The string payload of a JSON string value, used to read identifiers
back out of a loaded set. -/
def jstrOut : JVal → Option String
  | .jstr s => some s
  | _ => none

theorem jstrOut_inj : ∀ v v' s, s ∈ jstrOut v → s ∈ jstrOut v' → v = v' := by
  intro v v' s hv hv'
  cases v <;> simp [jstrOut] at hv
  cases v' <;> simp [jstrOut] at hv'
  rw [hv, hv']

/-- The identifier strings contained in a loaded set. -/
def idStrings (R : Finset JVal) : Finset String :=
  R.filterMap jstrOut jstrOut_inj

/-- The known set the next process start sees after this run persisted
`known_jobs`: `save_known_jobs` writes the file and `load_known_jobs`
reads it back (the written document is an array of strings, so the load
always succeeds). -/
def loadedAfterSave (known_jobs : Finset String) : Finset String :=
  match load_known_jobs (some (some (save_known_jobs known_jobs))) with
  | .ok R => idStrings R
  | .error _ => ∅

/-- The known set loaded at the start of run `n` of a sequence of runs,
where run `n` fetches the postings `posts n`, starting from loaded set
`K`: each run diffs, persists the updated set, and the next run loads
it. -/
def runsState (K : Finset String) (posts : Nat → List Job) : Nat → Finset String
  | 0 => K
  | n + 1 => loadedAfterSave (diff (runsState K posts n) (posts n)).2

/-- The set of truthy identifiers occurring in a list of postings. -/
def idsOf (P : List Job) : Finset String := (P.filterMap truthyId).toFinset

theorem truthyId_eq_some {j : Job} {i : String} (h : truthyId j = some i) :
    j.id = some i := by
  unfold truthyId at h
  cases hid : j.id with
  | none => rw [hid] at h; exact absurd h (by simp)
  | some s =>
    rw [hid] at h
    by_cases hs : s = "" <;> simp [hs] at h
    rw [h]

theorem diff_cons_none {job : Job} {K : Finset String} {rest : List Job}
    (h : truthyId job = none) : diff K (job :: rest) = diff K rest := by
  simp [diff, h]

theorem diff_cons_mem {job : Job} {K : Finset String} {rest : List Job} {i : String}
    (h : truthyId job = some i) (hi : i ∈ K) :
    diff K (job :: rest) = diff (insert i K) rest := by
  simp [diff, h, hi]

theorem diff_cons_new {job : Job} {K : Finset String} {rest : List Job} {i : String}
    (h : truthyId job = some i) (hi : i ∉ K) :
    diff K (job :: rest)
      = (job :: (diff (insert i K) rest).1, (diff (insert i K) rest).2) := by
  simp [diff, h, hi]

theorem mem_diff_new {K : Finset String} {P : List Job} {j : Job}
    (hj : j ∈ (diff K P).1) : ∃ i, truthyId j = some i ∧ i ∉ K := by
  induction P generalizing K with
  | nil => simp [diff] at hj
  | cons job rest ih =>
    cases h : truthyId job with
    | none => rw [diff_cons_none h] at hj; exact ih hj
    | some i =>
      by_cases hi : i ∈ K
      · rw [diff_cons_mem h hi] at hj
        obtain ⟨i2, hi2, hni⟩ := ih hj
        exact ⟨i2, hi2, fun hmem => hni (Finset.mem_insert_of_mem hmem)⟩
      · rw [diff_cons_new h hi] at hj
        rcases List.mem_cons.mp hj with hcase | hcase
        · subst hcase; exact ⟨i, h, hi⟩
        · obtain ⟨i2, hi2, hni⟩ := ih hcase
          exact ⟨i2, hi2, fun hmem => hni (Finset.mem_insert_of_mem hmem)⟩

theorem diff_snd (K : Finset String) (P : List Job) :
    (diff K P).2 = K ∪ idsOf P := by
  induction P generalizing K with
  | nil => simp [diff, idsOf]
  | cons job rest ih =>
    cases h : truthyId job with
    | none => simp [diff_cons_none h, h, ih, idsOf, List.filterMap_cons]
    | some i =>
      have hsnd : (diff (insert i K) rest).2 = insert i K ∪ idsOf rest := ih _
      have hout : insert i K ∪ idsOf rest = K ∪ idsOf (job :: rest) := by
        simp [idsOf, List.filterMap_cons, h, Finset.insert_union, Finset.union_insert]
      by_cases hi : i ∈ K
      · rw [diff_cons_mem h hi, hsnd, hout]
      · rw [diff_cons_new h hi]; rw [← hout, ← hsnd]

theorem diff_new_nil_of_known {K : Finset String} {P : List Job}
    (h : ∀ j ∈ P, ∀ i, truthyId j = some i → i ∈ K) : (diff K P).1 = [] := by
  induction P generalizing K with
  | nil => rw [diff]
  | cons job rest ih =>
    cases hid : truthyId job with
    | none =>
      rw [diff_cons_none hid]
      exact ih fun j hj i hji => h j (List.mem_cons_of_mem _ hj) i hji
    | some i =>
      have hiK : i ∈ K := h job (List.mem_cons_self _ _) i hid
      rw [diff_cons_mem hid hiK]
      exact ih fun j hj i2 hji =>
        Finset.mem_insert_of_mem (h j (List.mem_cons_of_mem _ hj) i2 hji)

/-- Claim C1: the diff step never reports a posting whose identifier was
already a member of the known set it started from. -/
theorem claim_C1 (K : Finset String) (P : List Job) (j : Job)
    (hj : j ∈ (diff K P).1) (i : String) (hid : j.id = some i) : i ∉ K := by
  obtain ⟨i2, hi2, hni⟩ := mem_diff_new hj
  have : j.id = some i2 := truthyId_eq_some hi2
  rw [hid] at this
  exact (Option.some_injective _ this) ▸ hni

theorem claim_C1_wit : ("B" : String) ∉ ({"A"} : Finset String) :=
  claim_C1 {"A"} [⟨some "B", none, none, none⟩] ⟨some "B", none, none, none⟩
    (by decide) "B" rfl

/-- Claim C2: the known set returned by the diff step equals the initial
set unioned with the truthy identifiers of the fetched postings; falsy
identifiers contribute nothing and the initial set is preserved. -/
theorem claim_C2 (K : Finset String) (P : List Job) :
    (diff K P).2 = K ∪ idsOf P :=
  diff_snd K P

/-- The KnownJobSet invariant of the spec: the set contains no empty and
no sentinel identifier. -/
def KnownInv (K : Finset String) : Prop := "" ∉ K ∧ "unknown_id" ∉ K

theorem truthyId_ne_empty {j : Job} {i : String} (h : truthyId j = some i) :
    i ≠ "" := by
  unfold truthyId at h
  cases hid : j.id with
  | none => rw [hid] at h; exact absurd h (by simp)
  | some s =>
    rw [hid] at h
    by_cases hs : s = "" <;> simp [hs] at h
    rw [← h]; exact hs

theorem load_ok_valid :
    ∀ st R, load_known_jobs st = Except.ok R → ∀ v ∈ R, validEntry v = true := by
  intro st R hload v hv
  match st with
  | none =>
    simp [load_known_jobs] at hload
    rw [← hload] at hv
    exact absurd hv (Finset.not_mem_empty v)
  | some none =>
    simp [load_known_jobs] at hload
    rw [← hload] at hv
    exact absurd hv (Finset.not_mem_empty v)
  | some (some w) =>
    cases w with
    | jarr xs =>
      rw [load_known_jobs] at hload
      by_cases hall : (xs.filter validEntry).all hashable
      · simp only [hall, if_true] at hload
        injection hload with hR
        rw [← hR] at hv
        exact (List.mem_filter.mp (List.mem_toFinset.mp hv)).2
      · simp [hall] at hload
    | jnull =>
      simp [load_known_jobs] at hload
      rw [← hload] at hv
      exact absurd hv (Finset.not_mem_empty v)
    | jbool b =>
      simp [load_known_jobs] at hload
      rw [← hload] at hv
      exact absurd hv (Finset.not_mem_empty v)
    | jnum n =>
      simp [load_known_jobs] at hload
      rw [← hload] at hv
      exact absurd hv (Finset.not_mem_empty v)
    | jstr s =>
      simp [load_known_jobs] at hload
      rw [← hload] at hv
      exact absurd hv (Finset.not_mem_empty v)
    | jobj kvs =>
      simp [load_known_jobs] at hload
      rw [← hload] at hv
      exact absurd hv (Finset.not_mem_empty v)

/-- Counterexample to claim C3: the empty known set satisfies the
invariant, yet the diff step run on a posting whose id is the sentinel
string inserts the sentinel into the set, breaking the invariant. -/
theorem claim_C3_cex :
    KnownInv (∅ : Finset String) ∧
      ¬ KnownInv (diff ∅ [⟨some "unknown_id", none, none, none⟩]).2 := by
  constructor
  · exact ⟨Finset.not_mem_empty _, Finset.not_mem_empty _⟩
  · intro h
    exact h.2 (by decide)

/-- Claim C3 as amended: load always establishes the invariant (its
output never contains the empty or the sentinel identifier), and the
diff step preserves the invariant provided no fetched posting carries
the sentinel identifier; without that proviso the diff step can insert
the sentinel (see the counterexample). -/
theorem claim_C3_amended (K : Finset String) (P : List Job)
    (hK : KnownInv K) (hP : ∀ j ∈ P, j.id ≠ some "unknown_id") :
    KnownInv (diff K P).2 ∧
      ∀ st R, load_known_jobs st = Except.ok R →
        JVal.jstr "" ∉ R ∧ JVal.jstr "unknown_id" ∉ R := by
  constructor
  · rw [diff_snd]
    constructor
    · intro hmem
      rcases Finset.mem_union.mp hmem with hmem | hmem
      · exact hK.1 hmem
      · obtain ⟨j, _, hji⟩ := List.mem_filterMap.mp (List.mem_toFinset.mp hmem)
        exact truthyId_ne_empty hji rfl
    · intro hmem
      rcases Finset.mem_union.mp hmem with hmem | hmem
      · exact hK.2 hmem
      · obtain ⟨j, hjP, hji⟩ := List.mem_filterMap.mp (List.mem_toFinset.mp hmem)
        exact hP j hjP (truthyId_eq_some hji)
  · intro st R hload
    constructor
    · intro hmem
      have := load_ok_valid st R hload _ hmem
      simp [validEntry, pyTruthy] at this
    · intro hmem
      have := load_ok_valid st R hload _ hmem
      simp [validEntry] at this

theorem claim_C3_wit :
    KnownInv (diff ∅ [⟨some "A", none, none, none⟩]).2 :=
  (claim_C3_amended ∅ [⟨some "A", none, none, none⟩]
    ⟨Finset.not_mem_empty _, Finset.not_mem_empty _⟩ (by decide)).1

theorem load_save_eq (S : Finset String) :
    load_known_jobs (some (some (save_known_jobs S)))
      = Except.ok
          ((S.filter fun s => s ≠ "" ∧ s ≠ "unknown_id").image JVal.jstr) := by
  rw [save_known_jobs, load_known_jobs]
  have hall :
      (((S.sort (· ≤ ·)).map JVal.jstr).filter validEntry).all hashable = true := by
    rw [List.all_eq_true]
    intro v hv
    obtain ⟨s, _, rfl⟩ := List.mem_map.mp (List.mem_filter.mp hv).1
    rfl
  simp only [hall, if_true]
  congr 1
  ext v
  simp only [List.mem_toFinset, List.mem_filter, List.mem_map, Finset.mem_sort,
    Finset.mem_image, Finset.mem_filter]
  constructor
  · rintro ⟨⟨s, hs, rfl⟩, hvalid⟩
    refine ⟨s, ⟨hs, ?_⟩, rfl⟩
    simpa [validEntry, pyTruthy] using hvalid
  · rintro ⟨s, ⟨hs, hgood⟩, rfl⟩
    exact ⟨⟨s, hs, rfl⟩, by simpa [validEntry, pyTruthy] using hgood⟩

theorem idStrings_image (T : Finset String) :
    idStrings (T.image JVal.jstr) = T := by
  ext s
  simp only [idStrings, Finset.mem_filterMap, Finset.mem_image]
  constructor
  · rintro ⟨v, ⟨t, ht, rfl⟩, hout⟩
    simp only [jstrOut, Option.mem_def, Option.some.injEq] at hout
    rwa [← hout]
  · intro hs
    exact ⟨JVal.jstr s, ⟨s, hs, rfl⟩, rfl⟩

theorem loadedAfterSave_eq (S : Finset String) :
    loadedAfterSave S = S.filter fun s => s ≠ "" ∧ s ≠ "unknown_id" := by
  rw [loadedAfterSave, load_save_eq]
  exact idStrings_image _

/-- One iteration of the set update of the diff loop: insert the
posting's identifier when it is truthy. -/
def addId (known : Finset String) (j : Job) : Finset String :=
  match truthyId j with
  | some i => insert i known
  | none => known

/-- The known set in force when the diff loop reaches the posting after
`pre`, starting from `K`: all truthy identifiers of `pre` have been
inserted, whether or not their postings were new. -/
def knownAfter (K : Finset String) (pre : List Job) : Finset String :=
  pre.foldl addId K

/-- Position `i` of `P` is classified NEW by the diff loop started on
`K`: its posting has a truthy identifier that is not in the known set in
force when the loop reaches it. -/
def isNewAt (K : Finset String) (P : List Job) (i : Fin P.length) : Bool :=
  match truthyId (P.get i) with
  | some id => decide (id ∉ knownAfter K (P.take i.1))
  | none => false

theorem addId_none {K : Finset String} {j : Job} (h : truthyId j = none) :
    addId K j = K := by
  simp [addId, h]

theorem addId_some {K : Finset String} {j : Job} {i : String}
    (h : truthyId j = some i) : addId K j = insert i K := by
  simp [addId, h]

theorem diff_sublist (K : Finset String) (P : List Job) :
    (diff K P).1.Sublist P := by
  induction P generalizing K with
  | nil => simp [diff]
  | cons job rest ih =>
    cases h : truthyId job with
    | none => rw [diff_cons_none h]; exact (ih K).cons job
    | some i =>
      by_cases hi : i ∈ K
      · rw [diff_cons_mem h hi]; exact (ih _).cons job
      · rw [diff_cons_new h hi]; exact (ih _).cons₂ job

theorem isNewAt_succ (K : Finset String) (j : Job) (rest : List Job)
    (i : Fin rest.length) :
    isNewAt K (j :: rest) i.succ = isNewAt (addId K j) rest i := by
  unfold isNewAt
  have hget : (j :: rest).get i.succ = rest.get i := rfl
  have htake : (j :: rest).take i.succ.1 = j :: rest.take i.1 := rfl
  have hknown : knownAfter K (j :: rest.take i.1)
      = knownAfter (addId K j) (rest.take i.1) := by
    simp [knownAfter]
  rw [hget, htake, hknown]

theorem diff_new_eq (K : Finset String) (P : List Job) :
    (diff K P).1 = ((List.finRange P.length).filter (isNewAt K P)).map P.get := by
  induction P generalizing K with
  | nil => simp [diff]
  | cons j rest ih =>
    have hlen : (j :: rest).length = rest.length + 1 := rfl
    have hzero : isNewAt K (j :: rest) ⟨0, Nat.succ_pos _⟩
        = match truthyId j with
          | some i => decide (i ∉ K)
          | none => false := rfl
    have key : ((List.finRange rest.length).map Fin.succ).filter
          (isNewAt K (j :: rest))
        = ((List.finRange rest.length).filter (isNewAt (addId K j) rest)).map
            Fin.succ := by
      rw [List.filter_map]
      refine congrArg (List.map Fin.succ) (List.filter_congr ?_)
      intro i _
      exact isNewAt_succ K j rest i
    have key2 : ∀ l : List (Fin rest.length),
        (l.map Fin.succ).map (j :: rest).get = l.map rest.get := by
      intro l
      rw [List.map_map]
      apply List.map_congr_left
      intro i _
      rfl
    rw [show List.finRange (j :: rest).length
        = (⟨0, Nat.succ_pos _⟩ : Fin (rest.length + 1))
            :: (List.finRange rest.length).map Fin.succ from
      List.finRange_succ_eq_map rest.length]
    rw [List.filter_cons]
    cases h : truthyId j with
    | none =>
      have h0 : isNewAt K (j :: rest) ⟨0, Nat.succ_pos _⟩ = false := by
        rw [hzero, h]
      rw [h0]
      simp only [Bool.false_eq_true, if_false]
      rw [key, key2, addId_none (K := K) h, diff_cons_none h]
      exact ih K
    | some i =>
      by_cases hi : i ∈ K
      · have h0 : isNewAt K (j :: rest) ⟨0, Nat.succ_pos _⟩ = false := by
          rw [hzero, h]
          simp [hi]
        rw [h0]
        simp only [Bool.false_eq_true, if_false]
        rw [key, key2, addId_some (K := K) h, diff_cons_mem h hi]
        exact ih _
      · have h0 : isNewAt K (j :: rest) ⟨0, Nat.succ_pos _⟩ = true := by
          rw [hzero, h]
          simp [hi]
        rw [h0]
        simp only [if_true]
        rw [List.map_cons, key, key2, addId_some (K := K) h, diff_cons_new h hi]
        have hgot : (j :: rest).get ⟨0, Nat.succ_pos _⟩ = j := rfl
        rw [hgot, ih _]

/-- Claim C9: the list of NEW postings produced by the diff step is an
order-preserving subsequence of the scraped list, consisting of exactly
the positions classified as new (truthy identifier, absent from the
known set in force when the loop reaches them). -/
theorem claim_C9 (K : Finset String) (P : List Job) :
    (diff K P).1.Sublist P ∧
      (diff K P).1
        = ((List.finRange P.length).filter (isNewAt K P)).map P.get :=
  ⟨diff_sublist K P, diff_new_eq K P⟩

theorem truthyId_of_id {j : Job} {s : String} (h : j.id = some s)
    (hs : s ≠ "") : truthyId j = some s := by
  rw [truthyId, h]
  simp [hs]

theorem new_exists_of_id {K : Finset String} {P : List Job} {i : String}
    (hi : i ∉ K) (hex : ∃ j ∈ P, truthyId j = some i) :
    ∃ j ∈ (diff K P).1, truthyId j = some i := by
  induction P generalizing K with
  | nil => simp at hex
  | cons job rest ih =>
    obtain ⟨jw, hjw, hjid⟩ := hex
    cases h : truthyId job with
    | none =>
      rw [diff_cons_none h]
      rcases List.mem_cons.mp hjw with rfl | hjw2
      · rw [h] at hjid; exact absurd hjid (by simp)
      · exact ih hi ⟨jw, hjw2, hjid⟩
    | some i2 =>
      by_cases hmem : i2 ∈ K
      · rw [diff_cons_mem h hmem]
        have hne : i ≠ i2 := fun he => hi (he ▸ hmem)
        have hjw2 : jw ∈ rest := by
          rcases List.mem_cons.mp hjw with rfl | hjw2
          · rw [h] at hjid
            exact absurd (Option.some_injective _ hjid) (Ne.symm hne)
          · exact hjw2
        have hi2 : i ∉ insert i2 K := by
          rw [Finset.mem_insert]
          rintro (rfl | hK2)
          · exact hne rfl
          · exact hi hK2
        exact ih hi2 ⟨jw, hjw2, hjid⟩
      · rw [diff_cons_new h hmem]
        by_cases hi2eq : i2 = i
        · subst hi2eq
          exact ⟨job, List.mem_cons_self _ _, h⟩
        · have hjw2 : jw ∈ rest := by
            rcases List.mem_cons.mp hjw with rfl | hjw2
            · rw [h] at hjid
              exact absurd (Option.some_injective _ hjid) hi2eq
            · exact hjw2
          have hi2 : i ∉ insert i2 K := by
            rw [Finset.mem_insert]
            rintro (rfl | hK2)
            · exact hi2eq rfl
            · exact hi hK2
          obtain ⟨j2, hj2, hj2id⟩ := ih hi2 ⟨jw, hjw2, hjid⟩
          exact ⟨j2, List.mem_cons_of_mem _ hj2, hj2id⟩

theorem runsState_no_sentinel (K : Finset String) (posts : Nat → List Job)
    (h0 : "unknown_id" ∉ K) : ∀ n, "unknown_id" ∉ runsState K posts n
  | 0 => h0
  | n + 1 => by
    rw [runsState, loadedAfterSave_eq]
    intro hmem
    exact (Finset.mem_filter.mp hmem).2.2 rfl

/-- Claim C10: a posting whose id is the literal sentinel string is
truthy, so on every run of a sequence of runs whose fetch contains such
a posting, it is classified NEW (some posting with that id appears in
the run's new list), its identifier is added to the in-memory set handed
to save and written into the persisted array, and the load of the next
run filters it out again — so it is reported as new each time. -/
theorem claim_C10 (K : Finset String) (posts : Nat → List Job) (j : Job)
    (h0 : "unknown_id" ∉ K) (n : Nat) (hj : j ∈ posts n)
    (hid : j.id = some "unknown_id") :
    (∃ j2 ∈ (diff (runsState K posts n) (posts n)).1, j2.id = some "unknown_id")
      ∧ "unknown_id" ∈ (diff (runsState K posts n) (posts n)).2
      ∧ (∃ l, save_known_jobs (diff (runsState K posts n) (posts n)).2 = JVal.jarr l
          ∧ JVal.jstr "unknown_id" ∈ l)
      ∧ "unknown_id" ∉ runsState K posts (n + 1) := by
  have htr : truthyId j = some "unknown_id" :=
    truthyId_of_id hid (by decide)
  have hK : "unknown_id" ∉ runsState K posts n :=
    runsState_no_sentinel K posts h0 n
  have hsent : "unknown_id" ∈ (diff (runsState K posts n) (posts n)).2 := by
    rw [diff_snd]
    exact Finset.mem_union_right _
      (List.mem_toFinset.mpr (List.mem_filterMap.mpr ⟨j, hj, htr⟩))
  refine ⟨?_, hsent, ?_, runsState_no_sentinel K posts h0 (n + 1)⟩
  · obtain ⟨j2, hj2, hj2id⟩ := new_exists_of_id hK ⟨j, hj, htr⟩
    exact ⟨j2, hj2, truthyId_eq_some hj2id⟩
  · refine ⟨((diff (runsState K posts n) (posts n)).2.sort (· ≤ ·)).map JVal.jstr,
      rfl, ?_⟩
    exact List.mem_map.mpr
      ⟨"unknown_id", (Finset.mem_sort _).mpr hsent, rfl⟩

theorem claim_C10_wit :
    (∃ j2 ∈ (diff (runsState ∅ (fun _ => [⟨some "unknown_id", none, none, none⟩]) 0)
          [⟨some "unknown_id", none, none, none⟩]).1,
        j2.id = some "unknown_id")
      ∧ "unknown_id" ∈ (diff (runsState ∅ (fun _ => [⟨some "unknown_id", none, none, none⟩]) 0)
          [⟨some "unknown_id", none, none, none⟩]).2
      ∧ (∃ l, save_known_jobs (diff (runsState ∅ (fun _ => [⟨some "unknown_id", none, none, none⟩]) 0)
            [⟨some "unknown_id", none, none, none⟩]).2 = JVal.jarr l
          ∧ JVal.jstr "unknown_id" ∈ l)
      ∧ "unknown_id" ∉ runsState ∅ (fun _ => [⟨some "unknown_id", none, none, none⟩]) 1 :=
  claim_C10 ∅ (fun _ => [⟨some "unknown_id", none, none, none⟩])
    ⟨some "unknown_id", none, none, none⟩ (Finset.not_mem_empty _) 0
    (List.mem_cons_self _ _) rfl

/-- Counterexample to claim C8: an array whose sole entry is the nested
array `["a"]` is well-formed JSON with an array root, yet
`load_known_jobs` fails on it rather than accepting it: the entry is
truthy and not the sentinel, so it survives the filter, and the Python
`set` constructor then raises `TypeError` because a list is unhashable. -/
theorem claim_C8_cex :
    load_known_jobs (some (some (JVal.jarr [JVal.jarr [JVal.jstr "a"]])))
      = Except.error () := by
  decide

/-- Claim C8 as amended: a missing file, unparsable content, or a
non-array root yields the empty set without raising; an array root has
its falsy and sentinel entries filtered out and the survivors returned
as a set — provided every survivor is hashable.  A surviving entry that
is itself an array or object makes the load raise instead of being
accepted. -/
theorem claim_C8_amended :
    (load_known_jobs none = Except.ok ∅) ∧
    (load_known_jobs (some none) = Except.ok ∅) ∧
    (∀ v : JVal, (∀ xs, v ≠ JVal.jarr xs) →
      load_known_jobs (some (some v)) = Except.ok ∅) ∧
    (∀ xs : List JVal,
      ((∀ v ∈ xs, validEntry v = true → hashable v = true) →
        ∃ R, load_known_jobs (some (some (JVal.jarr xs))) = Except.ok R ∧
          ∀ v, v ∈ R ↔ v ∈ xs ∧ pyTruthy v = true ∧ v ≠ JVal.jstr "unknown_id") ∧
      ((∃ v ∈ xs, validEntry v = true ∧ hashable v = false) →
        load_known_jobs (some (some (JVal.jarr xs))) = Except.error ())) := by
  refine ⟨rfl, rfl, ?_, ?_⟩
  · intro v hv
    cases v with
    | jarr xs => exact absurd rfl (hv xs)
    | jnull => rfl
    | jbool b => rfl
    | jnum n => rfl
    | jstr s => rfl
    | jobj kvs => rfl
  · intro xs
    constructor
    · intro hgood
      have hall : (xs.filter validEntry).all hashable = true := by
        rw [List.all_eq_true]
        intro v hv
        have hm := List.mem_filter.mp hv
        exact hgood v hm.1 hm.2
      refine ⟨(xs.filter validEntry).toFinset, ?_, ?_⟩
      · rw [load_known_jobs]; simp only [hall, if_true]
      · intro v
        rw [List.mem_toFinset, List.mem_filter]
        simp [validEntry, Bool.and_eq_true, bne_iff_ne, and_assoc]
    · rintro ⟨v, hv, hvalid, hunh⟩
      have hall : ¬ (xs.filter validEntry).all hashable = true := by
        rw [List.all_eq_true]
        intro h
        have := h v (List.mem_filter.mpr ⟨hv, hvalid⟩)
        rw [hunh] at this
        exact Bool.false_ne_true this
      rw [load_known_jobs]
      simp only [Bool.not_eq_true] at hall
      simp only [hall, Bool.false_eq_true, if_false]

theorem claim_C8_wit :
    load_known_jobs
        (some (some (JVal.jarr [JVal.jstr "b", JVal.jobj [("k", JVal.jnum 1)]])))
      = Except.error () :=
  (claim_C8_amended.2.2.2 [JVal.jstr "b", JVal.jobj [("k", JVal.jnum 1)]]).2
    ⟨JVal.jobj [("k", JVal.jnum 1)], by decide, by decide, rfl⟩

/-- Claim C5: saving an identifier set and loading it back yields, as an
unordered set, exactly the saved identifiers minus the empty string and
the sentinel (each surviving identifier coming back as a JSON string). -/
theorem claim_C5 (S : Finset String) :
    load_known_jobs (some (some (save_known_jobs S)))
      = Except.ok
          ((S.filter fun s => s ≠ "" ∧ s ≠ "unknown_id").image JVal.jstr) :=
  load_save_eq S

/-- Claim C6: when the fetcher returns no postings, the run stops after
the diagnostic: the diff step never runs, the notifier is never called,
and nothing is saved. -/
theorem claim_C6 (known : Finset String)
    (sender_email sender_password receiver_email : Option String)
    (transport : TransportOutcome) :
    mainRun known [] sender_email sender_password receiver_email transport
      = { noJobsDiag := true, diffRes := none, emailResult := none,
          saved := none } := by
  rfl

/-- Claim C7: on every run with a non-empty fetch result,
`save_known_jobs` receives the updated known set, whatever the email
configuration and transport outcome are, and whether or not any posting
was new. -/
theorem claim_C7 (known : Finset String) (P : List Job)
    (sender_email sender_password receiver_email : Option String)
    (transport : TransportOutcome) (hP : P ≠ []) :
    (mainRun known P sender_email sender_password receiver_email transport).saved
      = some (save_known_jobs (diff known P).2) := by
  cases P with
  | nil => exact absurd rfl hP
  | cons job rest =>
    rw [mainRun]
    simp only [List.isEmpty_cons, Bool.false_eq_true, if_false]
    by_cases h : (diff known (job :: rest)).1.isEmpty <;> simp [h]

theorem claim_C7_wit :
    (mainRun ∅ [⟨some "A", none, none, none⟩] none none none .authError).saved
      = some (save_known_jobs (diff ∅ [⟨some "A", none, none, none⟩]).2) :=
  claim_C7 ∅ [⟨some "A", none, none, none⟩] none none none .authError (by decide)

/-- Claim C4: running the diff step again with the same postings and the
known set produced by the first call classifies zero postings as new. -/
theorem claim_C4 (K : Finset String) (P : List Job) :
    (diff (diff K P).2 P).1 = [] := by
  refine diff_new_nil_of_known fun j hj i hji => ?_
  rw [diff_snd]
  exact Finset.mem_union_right _ (List.mem_toFinset.mpr (List.mem_filterMap.mpr ⟨j, hj, hji⟩))
